import Mathlib

/-!
Verification of the roman-numeral parser in `src/rome.c`.

The C code is shallowly embedded: the input C string becomes a `List Char`
(the NUL terminator corresponds to the end of the list, and the line
terminator is an ordinary character), C `int` digit values become `Int`,
character counts become `Nat`, and the `struct result` (value or
heap-allocated error message) becomes `Except Err Int`, with one `Err`
constructor per distinct `errorf` call site of the C source.
-/

set_option maxRecDepth 8000

namespace Rome

/-- Mirrors `enum token_type` / `struct token` of `rome.c`: a token is a
prefix-suffix pair (the union's first shape) or a repeated digit with a
count (the union's second shape).  The C field names `prefix`/`suffix`
become `pfx`/`sfx` (`prefix` is a Lean keyword). -/
inductive Token where
  | PAIR (pfx sfx : Int)
  | REPEAT (digit : Int) (count : Nat)
  deriving DecidableEq, Repr

/-- One constructor per distinct `errorf` call site of `rome.c`:
`emptyInput` is "input is empty" (parse_roman_number), `eof` is "EOF"
(consume_next_token), `invalidCharacter c` is "invalid character: %c",
`invalidPair c1 c2` is "invalid pair: %c%c", `invalidRepeat c n` is
"character %c cannot appear %d times in a row", and
`invalidSequence t1 t2` is "%s cannot be followed by %s" (the tokens are
carried directly instead of their `sprint_token` renderings). -/
inductive Err where
  | emptyInput
  | eof
  | invalidCharacter (c : Char)
  | invalidPair (c1 c2 : Char)
  | invalidRepeat (c : Char) (n : Nat)
  | invalidSequence (t1 t2 : Token)
  deriving DecidableEq, Repr

deriving instance DecidableEq for Except

/-- Embedding of `parse_roman_character` of `rome.c`: the switch over the seven roman
letters; `none` models the `return false` default. -/
def parse_roman_character (c : Char) : Option Int :=
  if c = 'I' then some 1
  else if c = 'V' then some 5
  else if c = 'X' then some 10
  else if c = 'L' then some 50
  else if c = 'C' then some 100
  else if c = 'D' then some 500
  else if c = 'M' then some 1000
  else none

/-- Embedding of `token_value` of `rome.c`: `digit * count` for a repeat,
`suffix - prefix` for a pair. -/
def token_value : Token → Int
  | .REPEAT d c => d * (c : Int)
  | .PAIR p s => s - p

/-- Embedding of `valid_pair` of `rome.c`: the switch on the suffix. -/
def valid_pair (pfx sfx : Int) : Bool :=
  if sfx = 5 ∨ sfx = 10 then pfx = 1
  else if sfx = 50 ∨ sfx = 100 then pfx = 10
  else if sfx = 500 ∨ sfx = 1000 then pfx = 100
  else false

/-- Embedding of `valid_repeats` of `rome.c`: zero counts are rejected up front, V/L/D
admit only count 1, I/X/C admit counts below 4, M admits any count, and
any other digit value falls to the `return 0` default. -/
def valid_repeats (main : Int) (count : Nat) : Bool :=
  if count = 0 then false
  else if main = 5 ∨ main = 50 ∨ main = 500 then count = 1
  else if main = 1 ∨ main = 10 ∨ main = 100 then count < 4
  else if main = 1000 then true
  else false

/-- Embedding of `valid_sequence` of `rome.c`: the first token's prefix digit must
strictly dominate the second token's suffix digit when that prefix is
V, L or D, and the second token's prefix digit otherwise. -/
def valid_sequence (first second : Token) : Bool :=
  let first_pfx := match first with
    | .PAIR p _ => p
    | .REPEAT d _ => d
  if first_pfx = 5 ∨ first_pfx = 50 ∨ first_pfx = 500 then
    let second_sfx := match second with
      | .PAIR _ s => s
      | .REPEAT d _ => d
    first_pfx > second_sfx
  else
    let second_pfx := match second with
      | .PAIR p _ => p
      | .REPEAT d _ => d
    first_pfx > second_pfx

/-- The scan-ahead loop of `consume_next_token`
(`for (it = str+2; *str == *it; ++it)` with the in-loop character check):
counts how many leading characters of `l` equal `c0`, re-validating
`str[0]` (that is, `c0`) on every iteration exactly as the C loop body
does.  The returned count is `it - (str+2)`; the caller adds 2. -/
def scan_run (c0 : Char) : List Char → Except Err Nat
  | [] => .ok 0
  | x :: xs =>
    if x = c0 then
      match parse_roman_character c0 with
      | none => .error (.invalidCharacter c0)
      | some _ =>
        match scan_run c0 xs with
        | .error e => .error e
        | .ok k => .ok (k + 1)
    else .ok 0

/-- Embedding of `consume_next_token` of `rome.c`.  The returned `Nat` is the
`result.value`: the count of characters consumed.  Note two quirks kept
from the source: an invalid second character is reported with `str[0]`
(the C call passes `str[0]` to `errorf`), and the repetition scan
re-checks `*str` even though it already parsed. -/
def consume_next_token (str : List Char) : Except Err (Nat × Token) :=
  match str with
  | [] => .error .eof
  | c0 :: tail0 =>
    if c0 = '\n' then .error .eof
    else
      match parse_roman_character c0 with
      | none => .error (.invalidCharacter c0)
      | some first =>
        match tail0 with
        | [] => .ok (1, .REPEAT first 1)
        | c1 :: tail1 =>
          if c1 = '\n' then .ok (1, .REPEAT first 1)
          else
            match parse_roman_character c1 with
            | none => .error (.invalidCharacter c0)
            | some second =>
              if first < second then
                if valid_pair first second then .ok (2, .PAIR first second)
                else .error (.invalidPair c0 c1)
              else if first > second then
                .ok (1, .REPEAT first 1)
              else
                match scan_run c0 tail1 with
                | .error e => .error e
                | .ok k =>
                  if valid_repeats first (2 + k) then
                    .ok (2 + k, .REPEAT first (2 + k))
                  else .error (.invalidRepeat c0 (2 + k))

/-- A successful scan never counts past the end of the scanned list. -/
theorem scan_run_le (c0 : Char) (l : List Char) (k : Nat)
    (h : scan_run c0 l = .ok k) : k ≤ l.length := by
  induction l generalizing k with
  | nil => simp [scan_run] at h; omega
  | cons x xs ih =>
    rw [scan_run] at h
    split at h
    · cases hp : parse_roman_character c0 <;> rw [hp] at h
      · cases h
      · cases hs : scan_run c0 xs <;> rw [hs] at h
        · cases h
        · cases h
          have := ih _ hs
          simp
          omega
    · cases h
      simp

/-- A successful tokenization consumes at least one character and at most
the whole unconsumed input (`assert(res.value > 0)` of the parse loop). -/
theorem consume_next_token_bounds (str : List Char) (n : Nat) (t : Token)
    (h : consume_next_token str = .ok (n, t)) : 1 ≤ n ∧ n ≤ str.length := by
  match str with
  | [] => cases h
  | c0 :: tail0 =>
    rw [consume_next_token] at h
    split at h
    · cases h
    · split at h
      · cases h
      · split at h
        · cases h
          simp
        · split at h
          · cases h
            simp
          · split at h
            · cases h
            · split at h
              · split at h
                · cases h
                  simp
                · cases h
              · split at h
                · cases h
                  simp
                · split at h
                  · cases h
                  · rename_i k hs
                    split at h
                    · cases h
                      have := scan_run_le c0 _ _ hs
                      simp only [List.length_cons]
                      omega
                    · cases h

/-- The token-accumulation loop of `parse_roman_number` (`while (*str != '\n'
&& *str != '\0')`): `prev` is the previously accepted token and `tally` the
running sum.  Termination is by the strictly positive consumed count. -/
def parse_loop (prev : Token) (tally : Int) : List Char → Except Err Int
  | [] => .ok tally
  | c :: rest =>
    if c = '\n' then .ok tally
    else
      match h : consume_next_token (c :: rest) with
      | .error e => .error e
      | .ok (n, next) =>
        if valid_sequence prev next then
          parse_loop next (tally + token_value next) ((c :: rest).drop n)
        else .error (.invalidSequence prev next)
termination_by s => s.length
decreasing_by
  have := consume_next_token_bounds _ _ _ h
  simp
  omega

/-- Embedding of `parse_roman_number` of `rome.c`: reject the empty string, consume the
first token, then run the accumulation loop over the rest. -/
def parse_roman_number (str : List Char) : Except Err Int :=
  match str with
  | [] => .error .emptyInput
  | c :: rest =>
    match consume_next_token (c :: rest) with
    | .error e => .error e
    | .ok (n, first) => parse_loop first (token_value first) ((c :: rest).drop n)

/-- Fuel-indexed companion of `parse_loop`, structurally recursive so that
the kernel can evaluate it on concrete inputs; `parse_loop_fuel_eq` shows
it agrees with `parse_loop` whenever the fuel exceeds the input length
(the fuel-out branch is unreachable then). -/
def parse_loop_fuel (fuel : Nat) (prev : Token) (tally : Int) (s : List Char) :
    Except Err Int :=
  match fuel with
  | 0 => .error .eof
  | fuel + 1 =>
    match s with
    | [] => .ok tally
    | c :: rest =>
      if c = '\n' then .ok tally
      else
        match consume_next_token (c :: rest) with
        | .error e => .error e
        | .ok (n, next) =>
          if valid_sequence prev next then
            parse_loop_fuel fuel next (tally + token_value next) ((c :: rest).drop n)
          else .error (.invalidSequence prev next)

/-- Structurally evaluable companion of `parse_roman_number`. -/
def parse_roman_number_fuel (str : List Char) : Except Err Int :=
  match str with
  | [] => .error .emptyInput
  | c :: rest =>
    match consume_next_token (c :: rest) with
    | .error e => .error e
    | .ok (n, first) =>
      parse_loop_fuel (c :: rest).length first (token_value first)
        ((c :: rest).drop n)

/-- One positional block of the reference canonical renderer: the value
`n < 10` of one decimal digit rendered with the letters for 1, 5 and 10
times the position's weight (e.g. `'X' 'L' 'C'` for the tens). -/
def canon_digit (c1 c5 c10 : Char) (n : Nat) : List Char :=
  if n = 0 then []
  else if n = 1 then [c1]
  else if n = 2 then [c1, c1]
  else if n = 3 then [c1, c1, c1]
  else if n = 4 then [c1, c5]
  else if n = 5 then [c5]
  else if n = 6 then [c5, c1]
  else if n = 7 then [c5, c1, c1]
  else if n = 8 then [c5, c1, c1, c1]
  else [c1, c10]

/-- Reference canonical roman-numeral renderer (the spec's "rendering `v`
to its canonical roman numeral"): thousands as repeated `M`, then the
hundreds, tens and units blocks in standard subtractive notation. -/
def to_roman (v : Nat) : List Char :=
  List.replicate (v / 1000) 'M'
    ++ canon_digit 'C' 'D' 'M' (v / 100 % 10)
    ++ canon_digit 'X' 'L' 'C' (v / 10 % 10)
    ++ canon_digit 'I' 'V' 'X' (v % 10)

/-- The input up to and including its first line terminator (or the whole
input when it has none): the portion of the input the parser may read. -/
def upto_newline : List Char → List Char
  | [] => []
  | c :: cs => if c = '\n' then ['\n'] else c :: upto_newline cs

/-- Unfolding of `parse_loop`: end of string stops the loop. -/
theorem parse_loop_nil (prev : Token) (tally : Int) :
    parse_loop prev tally [] = .ok tally := by
  rw [parse_loop]

/-- Unfolding of `parse_loop`: a line terminator stops the loop. -/
theorem parse_loop_newline (prev : Token) (tally : Int) (xs : List Char) :
    parse_loop prev tally ('\n' :: xs) = .ok tally := by
  rw [parse_loop]
  simp

/-- Unfolding of `parse_loop`: a tokenizer failure is propagated. -/
theorem parse_loop_cons_error (prev : Token) (tally : Int) (c : Char)
    (xs : List Char) (e : Err) (hc : ¬ c = '\n')
    (he : consume_next_token (c :: xs) = .error e) :
    parse_loop prev tally (c :: xs) = .error e := by
  rw [parse_loop]
  simp only [if_neg hc]
  split
  · rename_i e2 he2
    rw [he] at he2
    cases he2
    rfl
  · rename_i n next he2
    rw [he] at he2
    cases he2

/-- Unfolding of `parse_loop`: on a tokenized `next`, the adjacency is
checked and the loop continues past the consumed characters. -/
theorem parse_loop_cons_ok (prev : Token) (tally : Int) (c : Char)
    (xs : List Char) (n : Nat) (next : Token) (hc : ¬ c = '\n')
    (ho : consume_next_token (c :: xs) = .ok (n, next)) :
    parse_loop prev tally (c :: xs) =
      if valid_sequence prev next then
        parse_loop next (tally + token_value next) ((c :: xs).drop n)
      else .error (.invalidSequence prev next) := by
  rw [parse_loop]
  simp only [if_neg hc]
  split
  · rename_i e2 he2
    rw [ho] at he2
    cases he2
  · rename_i n2 next2 he2
    rw [ho] at he2
    cases he2
    rfl

/-- With fuel strictly above the input length, the fuel-indexed loop and
the loop of `parse_roman_number` agree. -/
theorem parse_loop_fuel_eq (fuel : Nat) (prev : Token) (tally : Int)
    (s : List Char) (hf : s.length < fuel) :
    parse_loop_fuel fuel prev tally s = parse_loop prev tally s := by
  induction fuel generalizing prev tally s with
  | zero => omega
  | succ fuel ih =>
    cases s with
    | nil =>
      rw [parse_loop_nil]
      rfl
    | cons c rest =>
      by_cases hc : c = '\n'
      · subst hc
        rw [parse_loop_newline]
        simp [parse_loop_fuel]
      · cases he : consume_next_token (c :: rest) with
        | error e =>
          rw [parse_loop_cons_error _ _ _ _ _ hc he]
          simp [parse_loop_fuel, if_neg hc, he]
        | ok p =>
          obtain ⟨n, next⟩ := p
          rw [parse_loop_cons_ok _ _ _ _ _ _ hc he]
          have hb := consume_next_token_bounds _ _ _ he
          simp only [parse_loop_fuel, if_neg hc, he]
          split
          · exact ih _ _ _
              (by simp only [List.length_drop, List.length_cons] at *; omega)
          · rfl

/-- The function `parse_roman_number` agrees with its evaluable companion. -/
theorem parse_roman_number_eval (str : List Char) :
    parse_roman_number str = parse_roman_number_fuel str := by
  match str with
  | [] => rfl
  | c :: rest =>
    rw [parse_roman_number, parse_roman_number_fuel]
    cases hc : consume_next_token (c :: rest) with
    | error e => rfl
    | ok p =>
      match p with
      | (n, first) =>
        have hb := consume_next_token_bounds _ _ _ hc
        dsimp only
        exact (parse_loop_fuel_eq _ _ _ _
          (by simp only [List.length_drop, List.length_cons] at *; omega)).symm

/-- Characterization of the digit table: the seven letter-value pairs. -/
theorem parse_roman_character_cases (c : Char) (d : Int)
    (h : parse_roman_character c = some d) :
    (c = 'I' ∧ d = 1) ∨ (c = 'V' ∧ d = 5) ∨ (c = 'X' ∧ d = 10) ∨
    (c = 'L' ∧ d = 50) ∨ (c = 'C' ∧ d = 100) ∨ (c = 'D' ∧ d = 500) ∨
    (c = 'M' ∧ d = 1000) := by
  rw [parse_roman_character] at h
  repeat' split at h
  all_goals simp_all

/-- Every digit value is positive. -/
theorem parse_roman_character_pos (c : Char) (d : Int)
    (h : parse_roman_character c = some d) : 1 ≤ d := by
  rcases parse_roman_character_cases c d h with
    ⟨_, h⟩ | ⟨_, h⟩ | ⟨_, h⟩ | ⟨_, h⟩ | ⟨_, h⟩ | ⟨_, h⟩ | ⟨_, h⟩ <;> omega

/-- A roman letter is never the line terminator. -/
theorem parse_roman_character_ne_newline (c : Char) (d : Int)
    (h : parse_roman_character c = some d) : c ≠ '\n' := by
  rcases parse_roman_character_cases c d h with
    ⟨h, _⟩ | ⟨h, _⟩ | ⟨h, _⟩ | ⟨h, _⟩ | ⟨h, _⟩ | ⟨h, _⟩ | ⟨h, _⟩ <;>
    subst h <;> decide

/-- The legal-pairs table of the spec, read off `valid_pair`. -/
theorem valid_pair_iff (p s : Int) :
    valid_pair p s = true ↔
      (p = 1 ∧ (s = 5 ∨ s = 10)) ∨ (p = 10 ∧ (s = 50 ∨ s = 100)) ∨
      (p = 100 ∧ (s = 500 ∨ s = 1000)) := by
  rw [valid_pair]
  repeat' split
  all_goals simp_all
  all_goals omega

/-- A legal pair is strictly increasing. -/
theorem valid_pair_lt (p s : Int) (h : valid_pair p s = true) : p < s := by
  rcases (valid_pair_iff p s).mp h with ⟨h1, h2⟩ | ⟨h1, h2⟩ | ⟨h1, h2⟩ <;>
    rcases h2 with h2 | h2 <;> omega

/-- When `str[0]` is a roman letter, the scan's in-loop character check is
dead code: the scan counts the leading run of `c0` and cannot fail. -/
theorem scan_run_replicate_append (c0 : Char) (d : Int) (m : Nat)
    (rest : List Char) (hp : parse_roman_character c0 = some d)
    (hr : rest.head? ≠ some c0) :
    scan_run c0 (List.replicate m c0 ++ rest) = .ok m := by
  induction m with
  | zero =>
    cases rest with
    | nil => rfl
    | cons y ys =>
      rw [List.replicate_zero, List.nil_append, scan_run]
      rw [if_neg]
      intro hy
      exact hr (by rw [hy]; rfl)
  | succ m ih =>
    rw [List.replicate_succ, List.cons_append, scan_run, if_pos rfl, hp, ih]

/-- The characters counted by the scan all equal the scanned letter. -/
theorem scan_run_take (c0 : Char) (l : List Char) (k : Nat)
    (h : scan_run c0 l = .ok k) : l.take k = List.replicate k c0 := by
  induction l generalizing k with
  | nil =>
    rw [scan_run] at h
    cases h
    rfl
  | cons x xs ih =>
    rw [scan_run] at h
    split at h
    · cases hp : parse_roman_character c0 <;> rw [hp] at h
      · cases h
      · cases hs : scan_run c0 xs <;> rw [hs] at h
        · cases h
        · cases h
          rename_i hx _ k2
          subst hx
          rw [List.take_succ_cons, List.replicate_succ, ih _ hs]
    · cases h
      rfl

/-- Every character consumed by a successful tokenization is a roman
letter. -/
theorem consume_next_token_chars (str : List Char) (n : Nat) (t : Token)
    (h : consume_next_token str = .ok (n, t)) :
    ∀ c ∈ str.take n, (parse_roman_character c).isSome := by
  match str with
  | [] => cases h
  | c0 :: tail0 =>
    rw [consume_next_token] at h
    split at h
    · cases h
    · split at h
      · cases h
      · rename_i first hp0
        split at h
        · cases h
          intro c hc
          simp only [List.take_succ_cons, List.take_nil, List.mem_singleton] at hc
          rw [hc, hp0]
          rfl
        · rename_i c1 tail1
          split at h
          · cases h
            intro c hc
            simp only [List.take_succ_cons, List.take_zero,
              List.mem_cons, List.not_mem_nil, or_false] at hc
            rw [hc, hp0]
            rfl
          · split at h
            · cases h
            · rename_i second hp1
              split at h
              · split at h
                · cases h
                  intro c hc
                  simp only [List.take_succ_cons, List.take_zero,
                    List.mem_cons, List.not_mem_nil, or_false] at hc
                  rcases hc with hc | hc
                  · rw [hc, hp0]; rfl
                  · rw [hc, hp1]; rfl
                · cases h
              · split at h
                · cases h
                  intro c hc
                  simp only [List.take_succ_cons, List.take_zero,
                    List.mem_cons, List.not_mem_nil, or_false] at hc
                  rw [hc, hp0]
                  rfl
                · split at h
                  · cases h
                  · rename_i k hs
                    split at h
                    · cases h
                      intro c hc
                      have htk := scan_run_take c0 tail1 k hs
                      have h2k : 2 + k = k + 1 + 1 := by omega
                      rw [h2k] at hc
                      simp only [List.take_succ_cons, List.mem_cons] at hc
                      rcases hc with hc | hc | hc
                      · rw [hc, hp0]; rfl
                      · rw [hc, hp1]; rfl
                      · have hcc : c ∈ List.replicate k c0 := htk ▸ hc
                        rw [List.eq_of_mem_replicate hcc, hp0]
                        rfl
                    · cases h

/-- Every successfully tokenized token has a strictly positive value. -/
theorem consume_next_token_value_pos (str : List Char) (n : Nat) (t : Token)
    (h : consume_next_token str = .ok (n, t)) : 1 ≤ token_value t := by
  match str with
  | [] => cases h
  | c0 :: tail0 =>
    rw [consume_next_token] at h
    split at h
    · cases h
    · split at h
      · cases h
      · rename_i first hp0
        have hfirst := parse_roman_character_pos _ _ hp0
        split at h
        · cases h
          simpa [token_value] using hfirst
        · split at h
          · cases h
            simpa [token_value] using hfirst
          · split at h
            · cases h
            · split at h
              · split at h
                · rename_i hvp
                  cases h
                  have := valid_pair_lt _ _ hvp
                  simp only [token_value]
                  omega
                · cases h
              · split at h
                · cases h
                  simpa [token_value] using hfirst
                · split at h
                  · cases h
                  · rename_i k hs
                    split at h
                    · cases h
                      simp only [token_value]
                      have h2 : (2 : Int) ≤ ((2 + k : Nat) : Int) := by
                        push_cast
                        omega
                      nlinarith
                    · cases h

/-- The function `takeWhile` passes over a prefix that wholly satisfies the predicate. -/
theorem takeWhile_append_of_all (p : Char → Bool) (l1 l2 : List Char)
    (h : ∀ a ∈ l1, p a = true) :
    (l1 ++ l2).takeWhile p = l1 ++ l2.takeWhile p := by
  induction l1 with
  | nil => rfl
  | cons x xs ih =>
    rw [List.cons_append, List.takeWhile_cons,
      if_pos (h x (List.mem_cons_self x xs)),
      ih (fun a ha => h a (List.mem_cons_of_mem x ha))]
    rfl

/-- The function `upto_newline` passes over a terminator-free prefix. -/
theorem upto_newline_append_of_all (l1 l2 : List Char)
    (h : ∀ a ∈ l1, a ≠ '\n') :
    upto_newline (l1 ++ l2) = l1 ++ upto_newline l2 := by
  induction l1 with
  | nil => rfl
  | cons x xs ih =>
    rw [List.cons_append, upto_newline, if_neg (h x (List.mem_cons_self x xs)),
      ih (fun a ha => h a (List.mem_cons_of_mem x ha))]
    rfl

/-- The consumed characters are never the line terminator. -/
theorem consume_next_token_ne_newline (str : List Char) (n : Nat) (t : Token)
    (h : consume_next_token str = .ok (n, t)) :
    ∀ c ∈ str.take n, c ≠ '\n' := by
  intro c hc
  obtain ⟨d, hd⟩ := Option.isSome_iff_exists.mp (consume_next_token_chars str n t h c hc)
  exact parse_roman_character_ne_newline c d hd

/-- The scan never looks past a line terminator: truncating there does not
change it. -/
theorem scan_run_upto (c0 : Char) (l : List Char) (hc : c0 ≠ '\n') :
    scan_run c0 (upto_newline l) = scan_run c0 l := by
  induction l with
  | nil => rfl
  | cons x xs ih =>
    rw [upto_newline]
    by_cases hx : x = '\n'
    · subst hx
      have hne : ¬('\n' = c0) := fun hh => hc hh.symm
      rw [if_pos rfl, scan_run, if_neg hne, scan_run, if_neg hne]
    · rw [if_neg hx, scan_run, scan_run]
      by_cases hxc : x = c0
      · rw [if_pos hxc, if_pos hxc, ih]
      · rw [if_neg hxc, if_neg hxc]

/-- The tokenizer never looks past the first line terminator. -/
theorem consume_next_token_upto (str : List Char) :
    consume_next_token (upto_newline str) = consume_next_token str := by
  match str with
  | [] => rfl
  | c0 :: tail0 =>
    rw [upto_newline]
    by_cases h0 : c0 = '\n'
    · rw [if_pos h0, h0, consume_next_token, consume_next_token,
        if_pos rfl, if_pos rfl]
    · rw [if_neg h0, consume_next_token, consume_next_token,
        if_neg h0, if_neg h0]
      cases hp0 : parse_roman_character c0 with
      | none => rfl
      | some first =>
        match tail0 with
        | [] => rfl
        | c1 :: tail1 =>
          rw [upto_newline]
          by_cases h1 : c1 = '\n'
          · rw [if_pos h1, h1]
            dsimp only
            rw [if_pos rfl, if_pos rfl]
          · rw [if_neg h1]
            dsimp only
            rw [if_neg h1, if_neg h1]
            cases hp1 : parse_roman_character c1 with
            | none => rfl
            | some second =>
              dsimp only
              by_cases hlt : first < second
              · rw [if_pos hlt, if_pos hlt]
              · rw [if_neg hlt, if_neg hlt]
                by_cases hgt : first > second
                · rw [if_pos hgt, if_pos hgt]
                · rw [if_neg hgt, if_neg hgt,
                    scan_run_upto c0 tail1 (fun hh => h0 hh)]

/-- A successful run of the parse loop only ever accepts roman letters
before the first line terminator. -/
theorem parse_loop_chars (prev : Token) (tally : Int) (s : List Char) :
    ∀ v, parse_loop prev tally s = .ok v →
      ∀ c ∈ s.takeWhile (fun c => c != '\n'), (parse_roman_character c).isSome := by
  induction prev, tally, s using parse_loop.induct with
  | case1 prev tally =>
    intro v hv c hc
    simp at hc
  | case2 prev tally xs =>
    intro v hv c hc
    simp [List.takeWhile_cons] at hc
  | case3 prev tally x xs hx e he =>
    intro v hv
    rw [parse_loop_cons_error _ _ _ _ _ hx he] at hv
    cases hv
  | case4 prev tally x xs hx n next he hvs ih =>
    intro v hv c hc
    rw [parse_loop_cons_ok _ _ _ _ _ _ hx he, if_pos hvs] at hv
    have hchars := consume_next_token_chars _ _ _ he
    have hne := consume_next_token_ne_newline _ _ _ he
    conv at hc => rw [← List.take_append_drop n (x :: xs)]
    rw [takeWhile_append_of_all _ _ _
      (fun a ha => by simpa using hne a ha)] at hc
    rcases List.mem_append.mp hc with hc | hc
    · exact hchars c hc
    · exact ih v hv c hc
  | case5 prev tally x xs hx n next he hvs =>
    intro v hv
    rw [parse_loop_cons_ok _ _ _ _ _ _ hx he, if_neg hvs] at hv
    cases hv

/-- The parse loop's result is at least the incoming tally: every accepted
token adds a positive value. -/
theorem parse_loop_tally_le (prev : Token) (tally : Int) (s : List Char) :
    ∀ v, parse_loop prev tally s = .ok v → tally ≤ v := by
  induction prev, tally, s using parse_loop.induct with
  | case1 prev tally =>
    intro v hv
    rw [parse_loop_nil] at hv
    cases hv
    exact le_refl _
  | case2 prev tally xs =>
    intro v hv
    rw [parse_loop_newline] at hv
    cases hv
    exact le_refl _
  | case3 prev tally x xs hx e he =>
    intro v hv
    rw [parse_loop_cons_error _ _ _ _ _ hx he] at hv
    cases hv
  | case4 prev tally x xs hx n next he hvs ih =>
    intro v hv
    rw [parse_loop_cons_ok _ _ _ _ _ _ hx he, if_pos hvs] at hv
    have h1 := consume_next_token_value_pos _ _ _ he
    have h2 := ih v hv
    omega
  | case5 prev tally x xs hx n next he hvs =>
    intro v hv
    rw [parse_loop_cons_ok _ _ _ _ _ _ hx he, if_neg hvs] at hv
    cases hv

/-- Dropping consumed, terminator-free characters commutes with truncation
at the first terminator. -/
theorem drop_upto_comm (s : List Char) (n : Nat) (hn : n ≤ s.length)
    (hne : ∀ c ∈ s.take n, c ≠ '\n') :
    (upto_newline s).drop n = upto_newline (s.drop n) := by
  conv_lhs => rw [← List.take_append_drop n s]
  rw [upto_newline_append_of_all _ _ hne]
  have hl : (s.take n).length = n := by
    rw [List.length_take]
    omega
  have hd := List.drop_left (s.take n) (upto_newline (s.drop n))
  rw [hl] at hd
  exact hd

/-- The parse loop never looks past the first line terminator. -/
theorem parse_loop_upto (prev : Token) (tally : Int) (s : List Char) :
    parse_loop prev tally (upto_newline s) = parse_loop prev tally s := by
  induction prev, tally, s using parse_loop.induct with
  | case1 prev tally => rfl
  | case2 prev tally xs =>
    rw [parse_loop_newline, upto_newline, if_pos rfl, parse_loop_newline]
  | case3 prev tally x xs hx e he =>
    rw [parse_loop_cons_error _ _ _ _ _ hx he, upto_newline, if_neg hx,
      parse_loop_cons_error _ _ _ _ _ hx
        (by rw [show x :: upto_newline xs = upto_newline (x :: xs) by
              rw [upto_newline, if_neg hx],
            consume_next_token_upto]
            exact he)]
  | case4 prev tally x xs hx n next he hvs ih =>
    have hb := consume_next_token_bounds _ _ _ he
    have hne := consume_next_token_ne_newline _ _ _ he
    have hup : x :: upto_newline xs = upto_newline (x :: xs) := by
      rw [upto_newline, if_neg hx]
    rw [parse_loop_cons_ok _ _ _ _ _ _ hx he, if_pos hvs, upto_newline,
      if_neg hx,
      parse_loop_cons_ok _ _ _ _ _ _ hx
        (by rw [hup, consume_next_token_upto]; exact he),
      if_pos hvs, hup, drop_upto_comm _ _ hb.2 hne, ih]
  | case5 prev tally x xs hx n next he hvs =>
    have hup : x :: upto_newline xs = upto_newline (x :: xs) := by
      rw [upto_newline, if_neg hx]
    rw [parse_loop_cons_ok _ _ _ _ _ _ hx he, if_neg hvs, upto_newline,
      if_neg hx,
      parse_loop_cons_ok _ _ _ _ _ _ hx
        (by rw [hup, consume_next_token_upto]; exact he),
      if_neg hvs]

/-- A successful parse only ever accepts roman letters before the first
line terminator. -/
theorem parse_roman_number_chars (s : List Char) (v : Int)
    (h : parse_roman_number s = .ok v) :
    ∀ c ∈ s.takeWhile (fun c => c != '\n'), (parse_roman_character c).isSome := by
  match s with
  | [] => cases h
  | c0 :: rest =>
    rw [parse_roman_number] at h
    split at h
    · cases h
    · rename_i n first he
      intro c hc
      have hchars := consume_next_token_chars _ _ _ he
      have hne := consume_next_token_ne_newline _ _ _ he
      conv at hc => rw [← List.take_append_drop n (c0 :: rest)]
      rw [takeWhile_append_of_all _ _ _
        (fun a ha => by simpa using hne a ha)] at hc
      rcases List.mem_append.mp hc with hc | hc
      · exact hchars c hc
      · exact parse_loop_chars _ _ _ v h c hc

/-- A successful parse returns a strictly positive value. -/
theorem parse_roman_number_pos (s : List Char) (v : Int)
    (h : parse_roman_number s = .ok v) : 1 ≤ v := by
  match s with
  | [] => cases h
  | c0 :: rest =>
    rw [parse_roman_number] at h
    split at h
    · cases h
    · rename_i n first he
      have h1 := consume_next_token_value_pos _ _ _ he
      have h2 := parse_loop_tally_le _ _ _ v h
      omega

/-- The parser never looks past the first line terminator. -/
theorem parse_roman_number_upto (s : List Char) :
    parse_roman_number (upto_newline s) = parse_roman_number s := by
  match s with
  | [] => rfl
  | c0 :: rest =>
    rw [upto_newline]
    by_cases h0 : c0 = '\n'
    · subst h0
      rw [if_pos rfl]
      have h1 : parse_roman_number ['\n'] = .error .eof := rfl
      have h2 : parse_roman_number ('\n' :: rest) = .error .eof := by
        rw [parse_roman_number]
        have hcon : consume_next_token ('\n' :: rest) = .error .eof := by
          rw [consume_next_token, if_pos rfl]
        rw [hcon]
      rw [h1, h2]
    · rw [if_neg h0]
      have hup : c0 :: upto_newline rest = upto_newline (c0 :: rest) := by
        rw [upto_newline, if_neg h0]
      rw [parse_roman_number, parse_roman_number]
      have hcons : consume_next_token (c0 :: upto_newline rest) =
          consume_next_token (c0 :: rest) := by
        rw [hup, consume_next_token_upto]
      rw [hcons]
      cases he : consume_next_token (c0 :: rest) with
      | error e => rfl
      | ok p =>
        obtain ⟨n, first⟩ := p
        have hb := consume_next_token_bounds _ _ _ he
        have hne := consume_next_token_ne_newline _ _ _ he
        dsimp only
        rw [hup, drop_upto_comm _ _ hb.2 hne, parse_loop_upto]

/-- Roundtrip of the canonical rendering, values 1 to 1000. -/
theorem roundtrip_chunk1 :
    ∀ i : Fin 1000, parse_roman_number_fuel (to_roman (1 + i.val)) =
      Except.ok ((1 + i.val : Nat) : Int) := by
  decide

/-- Roundtrip of the canonical rendering, values 1001 to 2000. -/
theorem roundtrip_chunk2 :
    ∀ i : Fin 1000, parse_roman_number_fuel (to_roman (1001 + i.val)) =
      Except.ok ((1001 + i.val : Nat) : Int) := by
  decide

/-- Roundtrip of the canonical rendering, values 2001 to 3000. -/
theorem roundtrip_chunk3 :
    ∀ i : Fin 1000, parse_roman_number_fuel (to_roman (2001 + i.val)) =
      Except.ok ((2001 + i.val : Nat) : Int) := by
  decide

/-- Roundtrip of the canonical rendering, values 3001 to 3999. -/
theorem roundtrip_chunk4 :
    ∀ i : Fin 999, parse_roman_number_fuel (to_roman (3001 + i.val)) =
      Except.ok ((3001 + i.val : Nat) : Int) := by
  decide

/-- Claim C1: for every integer in [1, 3999], parsing the canonical
roman-numeral rendering succeeds and returns exactly that integer. -/
theorem claim_C1_roundtrip (v : Nat) (h1 : 1 ≤ v) (h2 : v ≤ 3999) :
    parse_roman_number (to_roman v) = .ok (v : Int) := by
  rw [parse_roman_number_eval]
  by_cases ha : v ≤ 1000
  · have h := roundtrip_chunk1 ⟨v - 1, by omega⟩
    have hv : 1 + (v - 1) = v := by omega
    rw [hv] at h
    exact h
  · by_cases hb : v ≤ 2000
    · have h := roundtrip_chunk2 ⟨v - 1001, by omega⟩
      have hv : 1001 + (v - 1001) = v := by omega
      rw [hv] at h
      exact h
    · by_cases hc : v ≤ 3000
      · have h := roundtrip_chunk3 ⟨v - 2001, by omega⟩
        have hv : 2001 + (v - 2001) = v := by omega
        rw [hv] at h
        exact h
      · have h := roundtrip_chunk4 ⟨v - 3001, by omega⟩
        have hv : 3001 + (v - 3001) = v := by omega
        rw [hv] at h
        exact h

/-- Witness for claim C1 at 1999 ("MCMXCIX"). -/
theorem claim_C1_witness :
    1 ≤ 1999 ∧ 1999 ≤ 3999 ∧
    parse_roman_number (to_roman 1999) = .ok (1999 : Int) :=
  ⟨by decide, by decide, claim_C1_roundtrip 1999 (by decide) (by decide)⟩

/-- Claim C2: for every pair of tokens, `valid_sequence` accepts iff: when
the first token's prefix digit (the pair prefix, else the repeat digit) is
one of 5, 50, 500, that prefix strictly exceeds the second token's suffix
digit (pair suffix, else repeat digit); otherwise that prefix strictly
exceeds the second token's prefix digit (pair prefix, else repeat digit). -/
theorem claim_C2_valid_sequence_rule (t1 t2 : Token) :
    valid_sequence t1 t2 = true ↔
      (let fp : Int := match t1 with
        | .PAIR p _ => p
        | .REPEAT d _ => d
       if fp = 5 ∨ fp = 50 ∨ fp = 500 then
         (match t2 with
          | .PAIR _ s => s
          | .REPEAT d _ => d) < fp
       else
         (match t2 with
          | .PAIR p _ => p
          | .REPEAT d _ => d) < fp) := by
  cases t1 <;> cases t2 <;>
    simp only [valid_sequence] <;>
    split <;>
    simp [gt_iff_lt]

/-- Tokenizing a single letter yields a trivial repeat. -/
theorem consume_single (c : Char) (d : Int)
    (hp : parse_roman_character c = some d) :
    consume_next_token [c] = .ok (1, .REPEAT d 1) := by
  rw [consume_next_token,
    if_neg (parse_roman_character_ne_newline c d hp), hp]

/-- Tokenizing a run of `m + 2` identical letters reaches the repetition
branch and stands or falls with `valid_repeats`. -/
theorem consume_replicate (c : Char) (d : Int) (m : Nat)
    (hp : parse_roman_character c = some d) :
    consume_next_token (List.replicate (m + 2) c) =
      if valid_repeats d (2 + m) then .ok (2 + m, .REPEAT d (2 + m))
      else .error (.invalidRepeat c (2 + m)) := by
  have hne := parse_roman_character_ne_newline c d hp
  have hscan : scan_run c (List.replicate m c) = .ok m := by
    have hs := scan_run_replicate_append c d m [] hp (by simp)
    simpa using hs
  have hrep : List.replicate (m + 2) c = c :: c :: List.replicate m c := by
    rw [show m + 2 = (m + 1) + 1 from rfl, List.replicate_succ,
      List.replicate_succ]
  rw [hrep, consume_next_token, if_neg hne, hp]
  dsimp only
  rw [if_neg hne, hp]
  dsimp only
  rw [if_neg (lt_irrefl d), if_neg (lt_irrefl d), hscan]

/-- The check `valid_repeats` on a positive count and a genuine digit is exactly the
spec's legal-repeats table. -/
theorem valid_repeats_table (c : Char) (d : Int) (n : Nat)
    (hp : parse_roman_character c = some d) (hn : 1 ≤ n) :
    valid_repeats d n = true ↔
      (((d = 5 ∨ d = 50 ∨ d = 500) ∧ n = 1) ∨
       ((d = 1 ∨ d = 10 ∨ d = 100) ∧ n ≤ 3) ∨ d = 1000) := by
  rcases parse_roman_character_cases c d hp with
    ⟨_, hd⟩ | ⟨_, hd⟩ | ⟨_, hd⟩ | ⟨_, hd⟩ | ⟨_, hd⟩ | ⟨_, hd⟩ | ⟨_, hd⟩ <;>
    subst hd <;>
    simp [valid_repeats] <;>
    omega

/-- A run alone on the line tokenizes successfully exactly when the table
allows it. -/
theorem consume_replicate_isOk (c : Char) (d : Int) (n : Nat)
    (hp : parse_roman_character c = some d) (hn : 1 ≤ n) :
    (consume_next_token (List.replicate n c)).isOk = true ↔
      valid_repeats d n = true := by
  match n with
  | 1 =>
    rw [List.replicate_one, consume_single c d hp]
    have h1 : valid_repeats d 1 = true := by
      rcases parse_roman_character_cases c d hp with
        ⟨_, hd⟩ | ⟨_, hd⟩ | ⟨_, hd⟩ | ⟨_, hd⟩ | ⟨_, hd⟩ | ⟨_, hd⟩ | ⟨_, hd⟩ <;>
        subst hd <;> rfl
    simp [h1, Except.isOk, Except.toBool]
  | m + 2 =>
    rw [consume_replicate c d m hp, Nat.add_comm 2 m]
    by_cases hv : valid_repeats d (m + 2) = true
    · rw [if_pos hv]
      simp [Except.isOk, Except.toBool, hv]
    · rw [if_neg hv]
      simp [Except.isOk, Except.toBool, hv]

/-- Parsing a lone run of `n` copies of `M` succeeds with value `1000 n`. -/
theorem parse_replicate_M (n : Nat) (hn : 1 ≤ n) :
    parse_roman_number (List.replicate n 'M') = .ok (1000 * (n : Int)) := by
  match n with
  | 1 =>
    rw [parse_roman_number_eval]
    decide
  | m + 2 =>
    have hp : parse_roman_character 'M' = some 1000 := rfl
    have hcon := consume_replicate 'M' 1000 m hp
    have hv : valid_repeats 1000 (2 + m) = true := by
      rw [valid_repeats]
      simp
    rw [if_pos hv] at hcon
    have hrep : List.replicate (m + 2) 'M' =
        'M' :: List.replicate (m + 1) 'M' := List.replicate_succ 'M' (m + 1)
    rw [hrep, parse_roman_number, ← hrep, hcon]
    dsimp only
    have hdrop : (List.replicate (m + 2) 'M').drop (2 + m) = [] := by
      rw [List.drop_eq_nil_iff, List.length_replicate]
      omega
    rw [hdrop, parse_loop_nil, token_value, Nat.add_comm 2 m]

/-- Claim C3: a run of `n ≥ 1` identical roman digits tokenizes iff the
legal-repeats table permits it (V, L, D only with count 1; I, X, C with
counts 1 to 3; M with any positive count); in particular parsing "VV",
"LL", "DD" or "IIII" always fails, while a lone run of M of any positive
length parses successfully. -/
theorem claim_C3_legal_repeats :
    (∀ (c : Char) (d : Int) (n : Nat),
      parse_roman_character c = some d → 1 ≤ n →
      ((consume_next_token (List.replicate n c)).isOk = true ↔
        (((d = 5 ∨ d = 50 ∨ d = 500) ∧ n = 1) ∨
         ((d = 1 ∨ d = 10 ∨ d = 100) ∧ n ≤ 3) ∨ d = 1000)))
    ∧ parse_roman_number ('V' :: 'V' :: []) = .error (.invalidRepeat 'V' 2)
    ∧ parse_roman_number ('L' :: 'L' :: []) = .error (.invalidRepeat 'L' 2)
    ∧ parse_roman_number ('D' :: 'D' :: []) = .error (.invalidRepeat 'D' 2)
    ∧ parse_roman_number ('I' :: 'I' :: 'I' :: 'I' :: []) =
        .error (.invalidRepeat 'I' 4)
    ∧ ∀ n : Nat, 1 ≤ n →
        parse_roman_number (List.replicate n 'M') = .ok (1000 * (n : Int)) := by
  refine ⟨?_, ?_, ?_, ?_, ?_, fun n hn => parse_replicate_M n hn⟩
  · intro c d n hp hn
    rw [consume_replicate_isOk c d n hp hn, valid_repeats_table c d n hp hn]
  · rw [parse_roman_number_eval]
    decide
  · rw [parse_roman_number_eval]
    decide
  · rw [parse_roman_number_eval]
    decide
  · rw [parse_roman_number_eval]
    decide

/-- Witness for claim C3 at "VV": a doubled V does not tokenize, matching
the table. -/
theorem claim_C3_witness :
    (consume_next_token (List.replicate 2 'V')).isOk = true ↔
      ((((5 : Int) = 5 ∨ (5 : Int) = 50 ∨ (5 : Int) = 500) ∧ 2 = 1) ∨
       (((5 : Int) = 1 ∨ (5 : Int) = 10 ∨ (5 : Int) = 100) ∧ 2 ≤ 3) ∨
       (5 : Int) = 1000) :=
  claim_C3_legal_repeats.1 'V' 5 2 (by decide) (by decide)

/-- Claim C4: with two leading roman letters of values `v1`, `v2`: if
`v1 < v2` the tokenizer emits the pair (consuming two characters) exactly
when the legal-pairs table lists it and fails with the invalid-pair error
otherwise; if `v1 > v2` it emits a trivial repeat of `v1`, consumes one
character, and never fails. -/
theorem claim_C4_two_letter_lookahead (c1 c2 : Char) (v1 v2 : Int)
    (rest : List Char) (h1 : parse_roman_character c1 = some v1)
    (h2 : parse_roman_character c2 = some v2) :
    (v1 < v2 →
      consume_next_token (c1 :: c2 :: rest) =
        (if (v1 = 1 ∧ (v2 = 5 ∨ v2 = 10)) ∨ (v1 = 10 ∧ (v2 = 50 ∨ v2 = 100)) ∨
            (v1 = 100 ∧ (v2 = 500 ∨ v2 = 1000))
         then .ok (2, .PAIR v1 v2)
         else .error (.invalidPair c1 c2)))
    ∧ (v2 < v1 →
      consume_next_token (c1 :: c2 :: rest) = .ok (1, .REPEAT v1 1)) := by
  have hn1 := parse_roman_character_ne_newline _ _ h1
  have hn2 := parse_roman_character_ne_newline _ _ h2
  constructor
  · intro hlt
    rw [consume_next_token, if_neg hn1, h1]
    dsimp only
    rw [if_neg hn2, h2]
    dsimp only
    rw [if_pos hlt]
    by_cases hvp : valid_pair v1 v2 = true
    · rw [if_pos hvp, if_pos ((valid_pair_iff v1 v2).mp hvp)]
    · rw [if_neg hvp, if_neg (fun hc => hvp ((valid_pair_iff v1 v2).mpr hc))]
  · intro hgt
    rw [consume_next_token, if_neg hn1, h1]
    dsimp only
    rw [if_neg hn2, h2]
    dsimp only
    rw [if_neg (show ¬ v1 < v2 by omega), if_pos (show v1 > v2 by omega)]

/-- Witness for claim C4 at "VI": a lonely V is emitted, one character
consumed. -/
theorem claim_C4_witness :
    consume_next_token ('V' :: 'I' :: []) = .ok (1, .REPEAT 5 1) :=
  (claim_C4_two_letter_lookahead 'V' 'I' 5 1 [] rfl rfl).2 (by decide)

/-- Counterexample to claim C5: parsing a lone line terminator fails with
the tokenizer's end-of-input error ("EOF"), not with the error that
reports the input as empty ("input is empty"). -/
theorem claim_C5_counterexample :
    parse_roman_number ['\n'] ≠ .error .emptyInput ∧
    parse_roman_number ['\n'] = .error .eof := by
  constructor
  · decide
  · decide

/-- Claim C5 as amended: the empty string fails with the empty-input error,
while a lone line terminator fails with the tokenizer's end-of-input
("EOF") error, a distinct error. -/
theorem claim_C5_amended :
    parse_roman_number [] = .error .emptyInput ∧
    parse_roman_number ['\n'] = .error .eof ∧
    Err.eof ≠ Err.emptyInput := by
  refine ⟨by decide, by decide, by decide⟩

/-- Claim C6: an input containing a non-roman character anywhere before its
first line terminator (or end of string) never parses successfully. -/
theorem claim_C6_invalid_character (s : List Char)
    (h : ∃ c ∈ s.takeWhile (fun c => c != '\n'), parse_roman_character c = none) :
    ∃ e, parse_roman_number s = .error e := by
  cases hres : parse_roman_number s with
  | error e => exact ⟨e, rfl⟩
  | ok v =>
    obtain ⟨c, hc, hnone⟩ := h
    have hs := parse_roman_number_chars s v hres c hc
    rw [hnone] at hs
    simp at hs

/-- Witness for claim C6 at "I?": the invalid character forces a failure. -/
theorem claim_C6_witness :
    (∃ c ∈ (['I', '?'] : List Char).takeWhile (fun c => c != '\n'),
      parse_roman_character c = none)
    ∧ ∃ e, parse_roman_number ['I', '?'] = .error e :=
  ⟨by decide, claim_C6_invalid_character ['I', '?'] (by decide)⟩

/-- Claim C7: "IVIV" tokenizes as the valid pair IV twice, and the
adjacency (IV, IV) is rejected by the sequence validator, so the parse
fails with the invalid-sequence error carrying both tokens. -/
theorem claim_C7_IVIV :
    consume_next_token ('I' :: 'V' :: 'I' :: 'V' :: []) = .ok (2, .PAIR 1 5)
    ∧ consume_next_token ('I' :: 'V' :: []) = .ok (2, .PAIR 1 5)
    ∧ valid_sequence (.PAIR 1 5) (.PAIR 1 5) = false
    ∧ parse_roman_number ('I' :: 'V' :: 'I' :: 'V' :: []) =
        .error (.invalidSequence (.PAIR 1 5) (.PAIR 1 5)) := by
  refine ⟨by decide, by decide, by decide, ?_⟩
  rw [parse_roman_number_eval]
  decide

/-- Claim C8: every successful tokenization consumes at least one
character, and consequently the parser terminates: it agrees with a loop
bounded by the input length. -/
theorem claim_C8_progress_termination :
    (∀ (s : List Char) (n : Nat) (t : Token),
      consume_next_token s = .ok (n, t) → 0 < n)
    ∧ ∀ s : List Char, parse_roman_number s = parse_roman_number_fuel s := by
  constructor
  · intro s n t h
    exact (consume_next_token_bounds s n t h).1
  · exact parse_roman_number_eval

/-- Witness for claim C8 at "V": one character consumed. -/
theorem claim_C8_witness :
    consume_next_token ['V'] = .ok (1, .REPEAT 5 1) ∧ 0 < 1 :=
  ⟨by decide, claim_C8_progress_termination.1 ['V'] 1 (.REPEAT 5 1) (by decide)⟩

/-- Claim C9: a successful parse returns a strictly positive value. -/
theorem claim_C9_positive (s : List Char) (v : Int)
    (h : parse_roman_number s = .ok v) : 1 ≤ v :=
  parse_roman_number_pos s v h

/-- Witness for claim C9 at "IV": value 4 is at least 1. -/
theorem claim_C9_witness :
    parse_roman_number ('I' :: 'V' :: []) = .ok 4 ∧ (1 : Int) ≤ 4 := by
  have h : parse_roman_number ('I' :: 'V' :: []) = .ok 4 := by
    rw [parse_roman_number_eval]
    decide
  exact ⟨h, claim_C9_positive ('I' :: 'V' :: []) 4 h⟩

/-- Claim C10: two inputs that agree up to and including their first line
terminator (or end of string) parse identically: characters after the
first terminator never influence the result. -/
theorem claim_C10_beyond_newline (s1 s2 : List Char)
    (h : upto_newline s1 = upto_newline s2) :
    parse_roman_number s1 = parse_roman_number s2 := by
  rw [← parse_roman_number_upto s1, h, parse_roman_number_upto]

/-- Witness for claim C10: garbage after the terminator is irrelevant. -/
theorem claim_C10_witness :
    upto_newline ['I', '\n', '?'] = upto_newline ['I', '\n', 'X', 'X']
    ∧ parse_roman_number ['I', '\n', '?'] =
        parse_roman_number ['I', '\n', 'X', 'X'] :=
  ⟨by decide, claim_C10_beyond_newline _ _ (by decide)⟩

end Rome
